import Mathlib

/-!
Shallow embedding of the ISCC reference implementation (`src/iscc/iscc.py`,
`src/iscc/metrics.py`).  Bytes are modelled as `Nat` values `< 256`, byte
strings as `List Nat`, code strings as `List Char`.  Machine arithmetic that
wraps in the source (`& max_int64` etc.) is modelled with explicit `% 2 ^ w`
or `&&&` masks on `Nat`.  Fallible operations (Python `raise` / failing
`assert`) return `Option`.  Tables that live in the repository's `const.py`
(not shipped under `src/`) are modelled from the spec or taken as parameters.
-/

namespace ISCC

/-- Big-endian byte-string to integer, as `int.from_bytes(digest, 'big')` and
the accumulation loop of `encode` (reversed digest, `numvalues *= 256`). -/
def bytesToNat (bs : List Nat) : Nat :=
  bs.foldl (fun acc b => acc * 256 + b) 0

/-- The digit-emission loop of `encode`: `while numvalues > 0` append
`value % 58`, then `value //= 58`, `numvalues //= 58`.  Digits come out
least-significant first (the source reverses them afterwards). -/
def b58Digits (numvalues value : Nat) : List Nat :=
  if numvalues = 0 then []
  else (value % 58) :: b58Digits (numvalues / 58) (value / 58)
  decreasing_by exact Nat.div_lt_self (Nat.pos_of_ne_zero (by assumption)) (by norm_num)

/-- The digit-accumulation loop of `decode`: reversed code, `c * numvalues`
summed with `numvalues *= 58`; equals base-58 evaluation of the digit list
most-significant first. -/
def b58Value (digits : List Nat) : Nat :=
  digits.foldl (fun acc d => acc * 58 + d) 0

/-- The byte-extraction loop of `decode` (also `int.to_bytes` of the source):
`while numvalues > 1` append `value % 256`, `value //= 256`,
`numvalues //= 256`.  Bytes come out least-significant first (the source
reverses them afterwards). -/
def natToBytesLoop (numvalues value : Nat) : List Nat :=
  if numvalues ≤ 1 then []
  else (value % 256) :: natToBytesLoop (numvalues / 256) (value / 256)
  decreasing_by
    exact Nat.div_lt_self (by omega) (by norm_num)

/-- Encoding of a digest of length 1 or 8: big-endian value, base-58 digits,
reversed to most-significant first, translated through `V2CTABLE`. -/
def encode1 (v2c : Nat → Char) (digest : List Nat) : List Char :=
  ((b58Digits (256 ^ digest.length) (bytesToNat digest)).reverse).map v2c

/-- Function `encode` from `iscc.py`: a 9-byte digest is split 1 ‖ 8 and the parts are
encoded separately; lengths other than 1, 8, 9 fail the assert (`none`). -/
def encode (v2c : Nat → Char) (digest : List Nat) : Option (List Char) :=
  if digest.length = 9 then
    some (encode1 v2c (digest.take 1) ++ encode1 v2c (digest.drop 1))
  else if digest.length = 1 ∨ digest.length = 8 then
    some (encode1 v2c digest)
  else
    none

/-- Decoding of a code of known bit length: translate each char through
`C2VTABLE` (plus `ord`), evaluate base 58, extract `bitLength / 8` bytes. -/
def decode1 (c2v : Char → Nat) (bitLength : Nat) (code : List Char) : List Nat :=
  (natToBytesLoop (2 ^ bitLength) (b58Value (code.map c2v))).reverse

/-- Function `decode` from `iscc.py`: 13 chars split 2 ‖ 11; 2 chars decode into 8
bits, 11 chars into 64 bits; every other length raises (`none`). -/
def decode (c2v : Char → Nat) (code : List Char) : Option (List Nat) :=
  if code.length = 13 then
    some (decode1 c2v 8 (code.take 2) ++ decode1 c2v 64 (code.drop 2))
  else if code.length = 2 then
    some (decode1 c2v 8 code)
  else if code.length = 11 then
    some (decode1 c2v 64 code)
  else
    none

/-- Modelled from the spec: the 58-character codec alphabet of the missing
`const.py` ("[A-Za-z1-9] minus ambiguous characters, a fixed 58-character
permutation supplied as a table"). -/
def SYMBOLS : List Char :=
  "123456789ABCDEFGHJKLMNPQRSTUVWXYZabcdefghijkmnopqrstuvwxyz".toList

/-- Modelled from the spec: `V2CTABLE` of the missing `const.py`, mapping a
digit value `< 58` to its alphabet character. -/
def v2cTable (v : Nat) : Char :=
  SYMBOLS.getD v '1'

/-- Modelled from the spec: `C2VTABLE` of the missing `const.py` combined
with the `ord` call of `decode`.  `str.translate` leaves characters that are
not in the table unchanged, so a character outside the alphabet falls through
to its own code point. -/
def c2vTable (c : Char) : Nat :=
  match SYMBOLS.indexOf? c with
  | some v => v
  | none => c.toNat

theorem b58Digits_zero (value : Nat) : b58Digits 0 value = [] := by
  rw [b58Digits]
  simp

theorem b58Digits_pos {numvalues : Nat} (h : numvalues ≠ 0) (value : Nat) :
    b58Digits numvalues value =
      (value % 58) :: b58Digits (numvalues / 58) (value / 58) := by
  rw [b58Digits, if_neg h]

theorem natToBytesLoop_zero {numvalues : Nat} (h : numvalues ≤ 1) (value : Nat) :
    natToBytesLoop numvalues value = [] := by
  rw [natToBytesLoop, if_pos h]

theorem natToBytesLoop_pos {numvalues : Nat} (h : ¬ numvalues ≤ 1) (value : Nat) :
    natToBytesLoop numvalues value =
      (value % 256) :: natToBytesLoop (numvalues / 256) (value / 256) := by
  rw [natToBytesLoop, if_neg h]

theorem one_lt_256_pow (n : Nat) : 1 < (256 : Nat) ^ (n + 1) :=
  one_lt_pow' (by norm_num) (by omega)

theorem pow256_succ_div (n : Nat) : (256 : Nat) ^ (n + 1) / 256 = 256 ^ n := by
  rw [pow_succ, Nat.mul_div_cancel _ (by norm_num)]

theorem bytesToNat_append (bs : List Nat) (b : Nat) :
    bytesToNat (bs ++ [b]) = bytesToNat bs * 256 + b := by
  simp [bytesToNat, List.foldl_append]

theorem b58Value_append (xs : List Nat) (d : Nat) :
    b58Value (xs ++ [d]) = b58Value xs * 58 + d := by
  simp [b58Value, List.foldl_append]

theorem b58Digits_mem_lt (numvalues value : Nat) :
    ∀ d ∈ b58Digits numvalues value, d < 58 := by
  induction numvalues, value using b58Digits.induct with
  | case1 v => simp [b58Digits_zero]
  | case2 nv v hnv ih =>
    rw [b58Digits_pos hnv]
    intro d hd
    rcases List.mem_cons.mp hd with h | h
    · subst h; exact Nat.mod_lt _ (by norm_num)
    · exact ih d h

theorem b58Digits_length_const (numvalues value w : Nat) :
    (b58Digits numvalues value).length = (b58Digits numvalues w).length := by
  induction numvalues, value using b58Digits.induct generalizing w with
  | case1 v => simp [b58Digits_zero]
  | case2 nv v hnv ih =>
    rw [b58Digits_pos hnv, b58Digits_pos hnv]
    simpa using ih (w / 58)

theorem b58Digits_numvalues_lt (numvalues value : Nat) :
    numvalues < 58 ^ (b58Digits numvalues value).length := by
  induction numvalues, value using b58Digits.induct with
  | case1 v => simp [b58Digits_zero]
  | case2 nv v hnv ih =>
    rw [b58Digits_pos hnv]
    simp only [List.length_cons, pow_succ]
    have hdiv := Nat.div_add_mod nv 58
    have hmod : nv % 58 < 58 := Nat.mod_lt _ (by norm_num)
    calc nv = 58 * (nv / 58) + nv % 58 := by omega
    _ < 58 * (nv / 58 + 1) := by omega
    _ ≤ 58 * 58 ^ (b58Digits (nv / 58) (v / 58)).length := by
        have := ih
        omega
    _ = 58 ^ (b58Digits (nv / 58) (v / 58)).length * 58 := by ring

theorem b58Value_reverse_digits (numvalues value : Nat) :
    b58Value (b58Digits numvalues value).reverse =
      value % 58 ^ (b58Digits numvalues value).length := by
  induction numvalues, value using b58Digits.induct with
  | case1 v => simp [b58Digits_zero, b58Value, Nat.mod_one]
  | case2 nv v hnv ih =>
    rw [b58Digits_pos hnv]
    simp only [List.reverse_cons, List.length_cons, b58Value_append, ih]
    have h58 : (58 : Nat) ^ ((b58Digits (nv / 58) (v / 58)).length + 1) =
        58 * 58 ^ (b58Digits (nv / 58) (v / 58)).length := by ring
    rw [h58, Nat.mod_mul]
    ring

theorem natToBytesLoop_len (L : Nat) (value : Nat) :
    (natToBytesLoop (256 ^ L) value).length = L := by
  induction L generalizing value with
  | zero => rw [natToBytesLoop_zero (by norm_num)]; rfl
  | succ n ih =>
    rw [natToBytesLoop_pos (by have := one_lt_256_pow n; omega)]
    simp [pow256_succ_div, ih]

theorem bytesToNat_reverse_loop (L : Nat) (value : Nat) :
    bytesToNat (natToBytesLoop (256 ^ L) value).reverse = value % 256 ^ L := by
  induction L generalizing value with
  | zero => rw [natToBytesLoop_zero (by norm_num)]; simp [bytesToNat, Nat.mod_one]
  | succ n ih =>
    rw [natToBytesLoop_pos (by have := one_lt_256_pow n; omega)]
    rw [pow256_succ_div]
    simp only [List.reverse_cons, bytesToNat_append, ih]
    have h256 : (256 : Nat) ^ (n + 1) = 256 * 256 ^ n := by ring
    rw [h256, Nat.mod_mul]
    ring

theorem bytesToNat_lt (bs : List Nat) (hb : ∀ b ∈ bs, b < 256) :
    bytesToNat bs < 256 ^ bs.length := by
  induction bs using List.reverseRecOn with
  | nil => simp [bytesToNat]
  | append_singleton xs b ih =>
    have hb' : ∀ x ∈ xs, x < 256 := fun x hx => hb x (by simp [hx])
    have hblt : b < 256 := hb b (by simp)
    have := ih hb'
    rw [bytesToNat_append]
    simp only [List.length_append, List.length_cons, List.length_nil, pow_succ]
    calc bytesToNat xs * 256 + b < (bytesToNat xs + 1) * 256 := by omega
    _ ≤ 256 ^ xs.length * 256 := by
        have : bytesToNat xs + 1 ≤ 256 ^ xs.length := this
        exact Nat.mul_le_mul_right _ this
    _ = 256 ^ (xs.length + 0 + 1) := by ring_nf

theorem loop_roundtrip (bs : List Nat) (hb : ∀ b ∈ bs, b < 256) :
    (natToBytesLoop (256 ^ bs.length) (bytesToNat bs)).reverse = bs := by
  induction bs using List.reverseRecOn with
  | nil => rw [natToBytesLoop]; simp
  | append_singleton xs b ih =>
    have hb' : ∀ x ∈ xs, x < 256 := fun x hx => hb x (by simp [hx])
    have hblt : b < 256 := hb b (by simp)
    have hlen : (xs ++ [b]).length = xs.length + 1 := by simp
    rw [hlen, bytesToNat_append,
      natToBytesLoop_pos (by have := one_lt_256_pow xs.length; omega)]
    have hm : (bytesToNat xs * 256 + b) % 256 = b := by omega
    have hd : (bytesToNat xs * 256 + b) / 256 = bytesToNat xs := by omega
    rw [pow256_succ_div, hm, hd]
    simp [ih hb']

/-- decode1 inverts encode1 on byte strings, given that the char-to-value
table inverts the value-to-char table on digit values. -/
theorem decode1_encode1 (v2c : Nat → Char) (c2v : Char → Nat)
    (hinv : ∀ v < 58, c2v (v2c v) = v)
    (digest : List Nat) (hb : ∀ b ∈ digest, b < 256) :
    decode1 c2v (8 * digest.length) (encode1 v2c digest) = digest := by
  unfold decode1 encode1
  have hmap : ((b58Digits (256 ^ digest.length) (bytesToNat digest)).reverse.map v2c).map c2v
      = (b58Digits (256 ^ digest.length) (bytesToNat digest)).reverse := by
    rw [List.map_map]
    have hid : ∀ d ∈ (b58Digits (256 ^ digest.length) (bytesToNat digest)).reverse,
        (c2v ∘ v2c) d = id d := by
      intro d hd
      have : d < 58 := b58Digits_mem_lt _ _ d (List.mem_reverse.mp hd)
      simp [hinv d this]
    rw [List.map_congr_left hid, List.map_id]
  rw [hmap, b58Value_reverse_digits]
  have hvlt : bytesToNat digest < 58 ^ (b58Digits (256 ^ digest.length) (bytesToNat digest)).length := by
    calc bytesToNat digest < 256 ^ digest.length := bytesToNat_lt digest hb
    _ < _ := b58Digits_numvalues_lt _ _
  rw [Nat.mod_eq_of_lt hvlt]
  have hpow : (2 : Nat) ^ (8 * digest.length) = 256 ^ digest.length := by
    rw [pow_mul]; norm_num
  rw [hpow, loop_roundtrip digest hb]

/-- The number of base-58 digits emitted for a 1-byte window is 2 and for an
8-byte window is 11. -/
theorem encode1_length (v2c : Nat → Char) (digest : List Nat) :
    (encode1 v2c digest).length = (b58Digits (256 ^ digest.length) 0).length := by
  unfold encode1
  simp [b58Digits_length_const (256 ^ digest.length) (bytesToNat digest) 0]

/-- C1: `decode(encode(d)) == d` for every digest of length 1, 8 or 9 whose
entries are bytes, whenever the char table inverts the value table. -/
theorem decode_encode (v2c : Nat → Char) (c2v : Char → Nat)
    (hinv : ∀ v < 58, c2v (v2c v) = v)
    (digest : List Nat)
    (hlen : digest.length = 1 ∨ digest.length = 8 ∨ digest.length = 9)
    (hb : ∀ b ∈ digest, b < 256) :
    (encode v2c digest).bind (decode c2v) = some digest := by
  have len2 : (b58Digits (256 ^ 1) (0 : Nat)).length = 2 := by
    norm_num [b58Digits_pos, b58Digits_zero]
  have len11 : (b58Digits (256 ^ 8) (0 : Nat)).length = 11 := by
    norm_num [b58Digits_pos, b58Digits_zero]
  rcases hlen with h1 | h8 | h9
  · rw [encode, if_neg (by omega), if_pos (Or.inl h1)]
    have hl : (encode1 v2c digest).length = 2 := by rw [encode1_length, h1, len2]
    rw [Option.some_bind, decode, if_neg (by omega), if_pos hl]
    have := decode1_encode1 v2c c2v hinv digest hb
    rw [h1] at this
    rw [show (8 : Nat) = 8 * 1 by norm_num, this]
  · rw [encode, if_neg (by omega), if_pos (Or.inr h8)]
    have hl : (encode1 v2c digest).length = 11 := by rw [encode1_length, h8, len11]
    rw [Option.some_bind, decode, if_neg (by omega), if_neg (by omega), if_pos hl]
    have := decode1_encode1 v2c c2v hinv digest hb
    rw [h8] at this
    rw [show (64 : Nat) = 8 * 8 by norm_num, this]
  · rw [encode, if_pos h9, Option.some_bind]
    have ht1 : (digest.take 1).length = 1 := by simp [h9]
    have hd8 : (digest.drop 1).length = 8 := by simp [h9]
    have hbt : ∀ b ∈ digest.take 1, b < 256 := fun b hbm => hb b (List.mem_of_mem_take hbm)
    have hbd : ∀ b ∈ digest.drop 1, b < 256 := fun b hbm => hb b (List.mem_of_mem_drop hbm)
    have hl1 : (encode1 v2c (digest.take 1)).length = 2 := by rw [encode1_length, ht1, len2]
    have hl8 : (encode1 v2c (digest.drop 1)).length = 11 := by rw [encode1_length, hd8, len11]
    have hlen13 : (encode1 v2c (digest.take 1) ++ encode1 v2c (digest.drop 1)).length = 13 := by
      rw [List.length_append, hl1, hl8]
    rw [decode, if_pos hlen13]
    rw [List.take_left' hl1, List.drop_left' hl1]
    have e1 := decode1_encode1 v2c c2v hinv (digest.take 1) hbt
    have e8 := decode1_encode1 v2c c2v hinv (digest.drop 1) hbd
    rw [ht1] at e1
    rw [hd8] at e8
    rw [show (8 : Nat) = 8 * 1 by norm_num, e1,
      show (64 : Nat) = 8 * 8 by norm_num, e8, List.take_append_drop]

/-- Every byte emitted by the extraction loop of `decode` is `< 256`. -/
theorem natToBytesLoop_mem_lt (numvalues value : Nat) :
    ∀ d ∈ natToBytesLoop numvalues value, d < 256 := by
  induction numvalues, value using natToBytesLoop.induct with
  | case1 nv v h => rw [natToBytesLoop_zero h]; simp
  | case2 nv v h ih =>
    rw [natToBytesLoop_pos h]
    intro d hd
    rcases List.mem_cons.mp hd with h' | h'
    · subst h'; exact Nat.mod_lt _ (by norm_num)
    · exact ih d h'

/-- C7 (amended): `decode` fails exactly on code strings whose length is not
2, 11 or 13; any string of legal length — whatever its characters — returns
a byte digest. -/
theorem decode_error_lengths (c2v : Char → Nat) (code : List Char) :
    (decode c2v code = none ↔
      ¬(code.length = 2 ∨ code.length = 11 ∨ code.length = 13)) ∧
    (∀ bs, decode c2v code = some bs → ∀ b ∈ bs, b < 256) := by
  constructor
  · unfold decode
    split
    · simp_all
    · split
      · simp_all
      · split <;> simp_all
  · intro bs hbs b hb
    unfold decode at hbs
    split at hbs
    · rcases Option.some_inj.mp hbs with rfl
      rcases List.mem_append.mp hb with h | h <;>
        exact natToBytesLoop_mem_lt _ _ b (List.mem_reverse.mp h)
    · split at hbs
      · rcases Option.some_inj.mp hbs with rfl
        exact natToBytesLoop_mem_lt _ _ b (List.mem_reverse.mp hb)
      · split at hbs
        · rcases Option.some_inj.mp hbs with rfl
          exact natToBytesLoop_mem_lt _ _ b (List.mem_reverse.mp hb)
        · exact absurd hbs (by simp)

/-- C7 witness: the amended statement evaluated on a one-character code,
which is rejected for its length. -/
theorem decode_error_lengths_witness :
    (decode c2vTable ['1'] = none ↔
      ¬((['1'] : List Char).length = 2 ∨ (['1'] : List Char).length = 11 ∨
        (['1'] : List Char).length = 13)) ∧
    (∀ bs, decode c2vTable ['1'] = some bs → ∀ b ∈ bs, b < 256) :=
  decode_error_lengths c2vTable ['1']

/-- C7 counterexample: the two-character string "00" consists of characters
outside the 58-character alphabet, yet `decode` does not fail on it — the
translate table passes unknown characters through to their own code points
and the result is the byte digest `[16]`. -/
theorem decode_illegal_char_accepted :
    SYMBOLS.contains '0' = false ∧ decode c2vTable ['0', '0'] = some [16] := by
  refine ⟨by decide, ?_⟩
  have h1 : b58Value (['0', '0'].map c2vTable) = 2832 := by decide
  rw [decode, if_neg (by decide), if_pos (by decide), decode1, h1,
    show (2 : Nat) ^ 8 = 256 from by norm_num,
    natToBytesLoop_pos (by norm_num)]
  norm_num [natToBytesLoop_zero]

/-- C1 witness: the inverse-table hypothesis holds for the modelled alphabet
tables, and a concrete 9-byte digest round-trips. -/
theorem decode_encode_witness :
    (encode v2cTable [0, 1, 2, 3, 4, 5, 6, 7, 255]).bind (decode c2vTable)
      = some [0, 1, 2, 3, 4, 5, 6, 7, 255] :=
  decode_encode v2cTable c2vTable (by decide)
    [0, 1, 2, 3, 4, 5, 6, 7, 255] (by right; right; rfl) (by decide)

/-- The per-digest counting loop of `similarity_hash`: for each digest `d`
(as big-endian integer `h`) add `h & 1` to `vector[i]` and shift, i.e. add
bit `i` of `h` to `vector[i]`. -/
def simhashVector (hash_digests : List (List Nat)) (n_bits : Nat) : List Nat :=
  hash_digests.foldl
    (fun vector d =>
      (List.range n_bits).map (fun i => vector.getD i 0 + bytesToNat d / 2 ^ i % 2))
    (List.replicate n_bits 0)

/-- Function `similarity_hash` from `iscc.py`: majority vote per bit column.  The
source compares `vector[i] >= len(digests) * 1. / 2`; the float `len / 2`
is exact (an integer or half-integer), so the comparison is modelled by the
exact `2 * vector[i] ≥ len`. -/
def similarity_hash (hash_digests : List (List Nat)) : List Nat :=
  let n_bytes := (hash_digests.headD []).length
  let n_bits := n_bytes * 8
  let vector := simhashVector hash_digests n_bits
  let shash := (List.range n_bits).foldl
    (fun sh i => if 2 * vector.getD i 0 ≥ hash_digests.length then sh ||| 2 ^ i else sh) 0
  (natToBytesLoop (256 ^ n_bytes) shash).reverse

theorem range_map_getD (n i : Nat) (f : Nat → Nat) (hi : i < n) :
    ((List.range n).map f).getD i 0 = f i := by
  rw [List.getD_eq_getElem?_getD, List.getElem?_map, List.getElem?_range hi]
  rfl

theorem simhashVector_length (hash_digests : List (List Nat)) (n_bits : Nat) :
    (simhashVector hash_digests n_bits).length = n_bits := by
  unfold simhashVector
  induction hash_digests using List.reverseRecOn with
  | nil => simp
  | append_singleton ds d ih => rw [List.foldl_append]; simp

theorem simhashVector_getD (hash_digests : List (List Nat)) (n_bits i : Nat)
    (hi : i < n_bits) :
    (simhashVector hash_digests n_bits).getD i 0 =
      hash_digests.countP (fun d => (bytesToNat d).testBit i) := by
  unfold simhashVector
  have step : ∀ (ds : List (List Nat)) (vec : List Nat),
      (ds.foldl (fun vector d =>
        (List.range n_bits).map (fun j => vector.getD j 0 + bytesToNat d / 2 ^ j % 2)) vec).getD i 0
      = vec.getD i 0 + ds.countP (fun d => (bytesToNat d).testBit i) := by
    intro ds
    induction ds with
    | nil => simp
    | cons d ds ih =>
      intro vec
      rw [List.foldl_cons, ih, range_map_getD _ _ _ hi, List.countP_cons]
      have hbit : bytesToNat d / 2 ^ i % 2
          = if (bytesToNat d).testBit i then 1 else 0 := by
        rw [Nat.testBit_to_div_mod]
        rcases Nat.mod_two_eq_zero_or_one (bytesToNat d / 2 ^ i) with h | h <;> simp [h]
      rw [hbit]
      split <;> omega
  rw [step]
  rw [List.getD_eq_getElem?_getD, List.getElem?_replicate]
  simp [hi]

theorem orFold_testBit (p : Nat → Prop) [DecidablePred p] (n j : Nat) :
    Nat.testBit
      ((List.range n).foldl (fun sh i => if p i then sh ||| 2 ^ i else sh) 0) j
      = decide (j < n ∧ p j) := by
  induction n with
  | zero => simp
  | succ n ih =>
    rw [List.range_succ, List.foldl_append, List.foldl_cons, List.foldl_nil]
    by_cases hp : p n
    · rw [if_pos hp, Nat.testBit_or, ih, Nat.testBit_two_pow]
      rcases eq_or_ne j n with rfl | hne
      · simp [hp]
      · have h1 : (j < n + 1 ∧ p j) ↔ (j < n ∧ p j) := and_congr_left' (by omega)
        rw [decide_eq_decide.mpr h1, decide_eq_false (by omega : ¬ n = j), Bool.or_false]
    · rw [if_neg hp, ih]
      apply decide_eq_decide.mpr
      constructor
      · exact fun h => ⟨by omega, h.2⟩
      · rintro ⟨h1, h2⟩
        refine ⟨?_, h2⟩
        rcases Nat.lt_succ_iff_lt_or_eq.mp h1 with h | rfl
        · exact h
        · exact absurd h2 hp

theorem orFold_lt (p : Nat → Prop) [DecidablePred p] (n : Nat) :
    (List.range n).foldl (fun sh i => if p i then sh ||| 2 ^ i else sh) 0 < 2 ^ n := by
  induction n with
  | zero => simp
  | succ n ih =>
    rw [List.range_succ, List.foldl_append, List.foldl_cons, List.foldl_nil]
    have h2 : (2 : Nat) ^ n < 2 ^ (n + 1) := Nat.pow_lt_pow_succ (by norm_num)
    split
    · exact Nat.or_lt_two_pow (lt_trans ih h2) h2
    · exact lt_trans ih h2

/-- Length preservation of `similarity_hash`: the output digest has the
common input length. -/
theorem similarity_hash_length (hash_digests : List (List Nat)) (L : Nat)
    (hne : hash_digests ≠ []) (hlen : ∀ d ∈ hash_digests, d.length = L) :
    (similarity_hash hash_digests).length = L := by
  have hhead : (hash_digests.headD []).length = L := by
    rcases hash_digests with _ | ⟨d, ds⟩
    · exact absurd rfl hne
    · exact hlen d (by simp)
  unfold similarity_hash
  rw [hhead]
  simp [natToBytesLoop_len]

/-- C2: for a non-empty list of digests of identical length `L`,
`similarity_hash` returns a digest of length `L` whose bit `i` (LSB-indexed
over the big-endian integer view) is set iff the number of input digests
with bit `i` set is at least `len(digests) / 2` (ties resolve to 1). -/
theorem similarity_hash_spec (hash_digests : List (List Nat)) (L : Nat)
    (hne : hash_digests ≠ []) (hlen : ∀ d ∈ hash_digests, d.length = L) :
    (similarity_hash hash_digests).length = L ∧
    ∀ i < 8 * L,
      Nat.testBit (bytesToNat (similarity_hash hash_digests)) i =
        decide (hash_digests.length ≤
          2 * hash_digests.countP (fun d => (bytesToNat d).testBit i)) := by
  have hhead : (hash_digests.headD []).length = L := by
    rcases hash_digests with _ | ⟨d, ds⟩
    · exact absurd rfl hne
    · exact hlen d (by simp)
  refine ⟨similarity_hash_length hash_digests L hne hlen, ?_⟩
  unfold similarity_hash
  rw [hhead]
  intro i hi
  have hi' : i < L * 8 := by omega
  rw [bytesToNat_reverse_loop]
  have hsh := orFold_lt
    (fun i => 2 * (simhashVector hash_digests (L * 8)).getD i 0 ≥ hash_digests.length) (L * 8)
  have h256 : (256 : Nat) ^ L = 2 ^ (L * 8) := by
    rw [show (256 : Nat) = 2 ^ 8 from by norm_num, ← pow_mul, Nat.mul_comm]
  rw [h256, Nat.mod_eq_of_lt hsh, orFold_testBit]
  rw [simhashVector_getD hash_digests (L * 8) i hi']
  apply decide_eq_decide.mpr
  constructor
  · exact fun h => h.2
  · exact fun h => ⟨hi', h⟩

/-- C2 witness: two 1-byte digests 0b00000011 and 0b00000001; the tie on
bit 1 resolves to 1 only where the count reaches half the inputs. -/
theorem similarity_hash_spec_witness :
    ([[3], [1]] : List (List Nat)) ≠ [] ∧
    (similarity_hash [[3], [1]]).length = 1 ∧
    Nat.testBit (bytesToNat (similarity_hash [[3], [1]])) 1 =
      decide (([[3], [1]] : List (List Nat)).length ≤
        2 * ([[3], [1]] : List (List Nat)).countP (fun d => (bytesToNat d).testBit 1)) := by
  refine ⟨by simp, ?_, ?_⟩
  · exact (similarity_hash_spec [[3], [1]] 1 (by simp) (by simp)).1
  · exact (similarity_hash_spec [[3], [1]] 1 (by simp) (by simp)).2 1 (by norm_num)

/-- Function `minimum_hash` from `iscc.py`.  The permutation tables
`const.MINHASH_PERMUTATIONS` are not shipped under `src/`, so they are taken
as parameters `a b : Nat → Nat` (the source reads `a[x]`, `b[x]`).  Python's
unbounded ints with `& max_int64` are modelled by `&&& (2 ^ 64 - 1)` on
`Nat`. -/
def minimum_hash (a b : Nat → Nat) (features : List Nat) : List Nat :=
  features.foldl
    (fun hashvalues hv =>
      (List.range 128).map (fun x =>
        min ((((a x * hv + b x) &&& (2 ^ 64 - 1)) % (2 ^ 61 - 1)) &&& (2 ^ 32 - 1))
          (hashvalues.getD x 0)))
    (List.replicate 128 (2 ^ 32 - 1))

theorem minimum_hash_length (a b : Nat → Nat) (features : List Nat) :
    (minimum_hash a b features).length = 128 := by
  unfold minimum_hash
  induction features using List.reverseRecOn with
  | nil => simp
  | append_singleton fs f ih => rw [List.foldl_append]; simp

theorem minimum_hash_getD (a b : Nat → Nat) (features : List Nat) (x : Nat)
    (hx : x < 128) :
    (minimum_hash a b features).getD x 0 =
      features.foldl
        (fun r h => min r ((((a x * h + b x) &&& (2 ^ 64 - 1)) % (2 ^ 61 - 1)) &&& (2 ^ 32 - 1)))
        (2 ^ 32 - 1) := by
  unfold minimum_hash
  have step : ∀ (fs : List Nat) (vec : List Nat),
      (fs.foldl (fun hashvalues hv =>
          (List.range 128).map (fun y =>
            min ((((a y * hv + b y) &&& (2 ^ 64 - 1)) % (2 ^ 61 - 1)) &&& (2 ^ 32 - 1))
              (hashvalues.getD y 0))) vec).getD x 0
        = fs.foldl
            (fun r h => min r ((((a x * h + b x) &&& (2 ^ 64 - 1)) % (2 ^ 61 - 1)) &&& (2 ^ 32 - 1)))
            (vec.getD x 0) := by
    intro fs
    induction fs with
    | nil => intro vec; rfl
    | cons hv fs ih =>
      intro vec
      rw [List.foldl_cons, List.foldl_cons, ih, range_map_getD _ _ _ hx, Nat.min_comm]
  rw [step]
  rw [List.getD_eq_getElem?_getD, List.getElem?_replicate, if_pos hx]
  rfl

theorem foldl_min_le (g : Nat → Nat) (fs : List Nat) :
    ∀ r, fs.foldl (fun r h => min r (g h)) r ≤ r := by
  induction fs with
  | nil => intro r; exact le_refl r
  | cons hv fs ih =>
    intro r
    rw [List.foldl_cons]
    exact le_trans (ih _) (Nat.min_le_left _ _)

/-- C3: `minimum_hash` returns exactly 128 values; slot `x` is the running
minimum, against initial register `2³² − 1`, of
`(((a[x] * h + b[x]) & (2⁶⁴ − 1)) mod (2⁶¹ − 1)) & (2³² − 1)` over the
features `h`; every slot lies in `[0, 2³² − 1]`. -/
theorem minimum_hash_spec (a b : Nat → Nat) (features : List Nat) :
    (minimum_hash a b features).length = 128 ∧
    ∀ x, x < 128 →
      (minimum_hash a b features).getD x 0 =
        features.foldl
          (fun r h => min r ((((a x * h + b x) &&& (2 ^ 64 - 1)) % (2 ^ 61 - 1)) &&& (2 ^ 32 - 1)))
          (2 ^ 32 - 1) ∧
      (minimum_hash a b features).getD x 0 ≤ 2 ^ 32 - 1 := by
  refine ⟨minimum_hash_length a b features, fun x hx => ⟨minimum_hash_getD a b features x hx, ?_⟩⟩
  rw [minimum_hash_getD a b features x hx]
  exact foldl_min_le _ features _

/-- C3 witness: identity permutation tables and the single feature 5; slot 3
holds `min(2³² − 1, 3·5 + 3) = 18`. -/
theorem minimum_hash_spec_witness :
    (minimum_hash (fun x => x) (fun x => x) [5]).length = 128 ∧
    ((minimum_hash (fun x => x) (fun x => x) [5]).getD 3 0 =
      ([5] : List Nat).foldl
        (fun r h => min r ((((3 * h + 3) &&& (2 ^ 64 - 1)) % (2 ^ 61 - 1)) &&& (2 ^ 32 - 1)))
        (2 ^ 32 - 1) ∧
    (minimum_hash (fun x => x) (fun x => x) [5]).getD 3 0 ≤ 2 ^ 32 - 1) := by
  have h := minimum_hash_spec (fun x => x) (fun x => x) [5]
  exact ⟨h.1, h.2 3 (by norm_num)⟩

/-- One of the two boundary-search loops of `chunk_length`: starting at
index `i` with rolling `pattern`, process `fuel` further bytes; at each step
`pattern = (pattern << 1) + gear[data[i]]`, return `some i` as soon as
`pattern & mask == 0`, else advance.  Returns the final index and pattern
when the fuel (the loop bound `min(limit, len(data)) - i`) runs out.  The
gear table `const.CHUNKING_GEAR` is not shipped under `src/` and is taken as
the parameter `gear`. -/
def gearScan (gear : Nat → Nat) (data : List Nat) (mask : Nat) :
    Nat → Nat → Nat → Option Nat × Nat × Nat
  | 0, i, pattern => (none, i, pattern)
  | fuel + 1, i, pattern =>
    let pattern' := (pattern <<< 1) + gear (data.getD i 0)
    if pattern' &&& mask = 0 then (some i, i, pattern')
    else gearScan gear data mask fuel (i + 1) pattern'

/-- Function `chunk_length` from `iscc.py`: terminal short chunk for
`len(data) ≤ min_size`, then the normal-zone scan against `mask_1` up to
`min(norm_size, len(data))`, then the extend-zone scan against `mask_2` up
to `min(max_size, len(data))`, and finally the hard cap. -/
def chunk_length (gear : Nat → Nat) (data : List Nat)
    (norm_size min_size max_size mask_1 mask_2 : Nat) : Nat :=
  if data.length ≤ min_size then data.length
  else
    match gearScan gear data mask_1 (min norm_size data.length - min_size) min_size 0 with
    | (some boundary, _, _) => boundary
    | (none, i, pattern) =>
      match gearScan gear data mask_2 (min max_size data.length - i) i pattern with
      | (some boundary, _, _) => boundary
      | (none, i, _) => i

/-- The refill step of the `data_chunks` driver loop: when the buffer holds
fewer than `amount` bytes, append the next `amount` bytes of the stream. -/
def dcRefill (sec stream : List Nat) (amount : Nat) :
    List Nat × List Nat :=
  if sec.length < amount then (sec ++ stream.take amount, stream.drop amount)
  else (sec, stream)

/-- The driver loop of `data_chunks`: refill (640 bytes for the first 100
chunks, 65536 thereafter), stop on an empty buffer, cut at `chunk_length`
with the stage parameters of the source, emit the prefix and keep the
suffix.  `fuel` bounds the iteration count; every emitted chunk is non-empty
so `total length + 1` suffices. -/
def dcGo (gear : Nat → Nat) : Nat → List Nat → List Nat → Nat → List (List Nat)
  | 0, _, _, _ => []
  | fuel + 1, sec, stream, counter =>
    if counter < 100 then
      if (dcRefill sec stream 640).1.length = 0 then []
      else
        (dcRefill sec stream 640).1.take
            (chunk_length gear (dcRefill sec stream 640).1 40 20 640 0x016118 0x00a0b1)
          :: dcGo gear fuel
            ((dcRefill sec stream 640).1.drop
              (chunk_length gear (dcRefill sec stream 640).1 40 20 640 0x016118 0x00a0b1))
            (dcRefill sec stream 640).2 (counter + 1)
    else
      if (dcRefill sec stream 65536).1.length = 0 then []
      else
        (dcRefill sec stream 65536).1.take
            (chunk_length gear (dcRefill sec stream 65536).1 4096 2048 65536
              0x0003590703530000 0x0000d90003530000)
          :: dcGo gear fuel
            ((dcRefill sec stream 65536).1.drop
              (chunk_length gear (dcRefill sec stream 65536).1 4096 2048 65536
                0x0003590703530000 0x0000d90003530000))
            (dcRefill sec stream 65536).2 (counter + 1)

/-- Function `data_chunks` from `iscc.py`: the initial `data.read(640)` fills the
buffer with the first 640 bytes; the rest of the input is the stream. -/
def data_chunks (gear : Nat → Nat) (data : List Nat) : List (List Nat) :=
  dcGo gear (data.length + 1) (data.take 640) (data.drop 640) 0

theorem gearScan_some {gear : Nat → Nat} {data : List Nat} {mask : Nat} :
    ∀ {fuel i pattern boundary i' p'},
      gearScan gear data mask fuel i pattern = (some boundary, i', p') →
      i ≤ boundary ∧ boundary < i + fuel := by
  intro fuel
  induction fuel with
  | zero => intro i pattern boundary i' p' h; simp [gearScan] at h
  | succ n ih =>
    intro i pattern boundary i' p' h
    rw [gearScan] at h
    split at h
    · rcases h with ⟨rfl, rfl, rfl⟩
      omega
    · have := ih h
      omega

theorem gearScan_none {gear : Nat → Nat} {data : List Nat} {mask : Nat} :
    ∀ {fuel i pattern i' p'},
      gearScan gear data mask fuel i pattern = (none, i', p') →
      i' = i + fuel := by
  intro fuel
  induction fuel with
  | zero =>
    intro i pattern i' p' h
    rw [gearScan] at h
    rcases h with ⟨rfl, rfl⟩
    omega
  | succ n ih =>
    intro i pattern i' p' h
    rw [gearScan] at h
    split at h
    · simp at h
    · have := ih h
      omega

/-- Bounds on one boundary: `chunk_length` lies between
`min(len(data), min_size)` and `min(max_size, len(data))` whenever
`min_size ≤ norm_size ≤ max_size`. -/
theorem chunk_length_bounds (gear : Nat → Nat) (data : List Nat)
    (norm_size min_size max_size mask_1 mask_2 : Nat)
    (h1 : min_size ≤ norm_size) (h2 : norm_size ≤ max_size) :
    min data.length min_size ≤
        chunk_length gear data norm_size min_size max_size mask_1 mask_2 ∧
      chunk_length gear data norm_size min_size max_size mask_1 mask_2 ≤
        min max_size data.length := by
  unfold chunk_length
  by_cases hle : data.length ≤ min_size
  · simp only [if_pos hle]
    omega
  · simp only [if_neg hle]
    rcases hsc : gearScan gear data mask_1 (min norm_size data.length - min_size) min_size 0
      with ⟨o1, i1, q1⟩
    cases o1 with
    | some boundary =>
      dsimp only
      have hb := gearScan_some hsc
      omega
    | none =>
      dsimp only
      have hi := gearScan_none hsc
      rcases hsc2 : gearScan gear data mask_2 (min max_size data.length - i1) i1 q1
        with ⟨o2, i2, q2⟩
      cases o2 with
      | some boundary =>
        dsimp only
        have hb := gearScan_some hsc2
        omega
      | none =>
        dsimp only
        have hi2 := gearScan_none hsc2
        omega

theorem dcRefill_append (sec stream : List Nat) (a : Nat) :
    (dcRefill sec stream a).1 ++ (dcRefill sec stream a).2 = sec ++ stream := by
  unfold dcRefill
  split
  · rw [List.append_assoc, List.take_append_drop]
  · rfl

theorem dcRefill_len (sec stream : List Nat) (a : Nat) :
    (dcRefill sec stream a).1.length + (dcRefill sec stream a).2.length
      = sec.length + stream.length := by
  have h := congrArg List.length (dcRefill_append sec stream a)
  simpa using h

theorem dcRefill_fst_ge (sec stream : List Nat) (a : Nat) :
    min (sec.length + stream.length) a ≤ (dcRefill sec stream a).1.length := by
  unfold dcRefill
  split
  · simp only [List.length_append, List.length_take]
    omega
  · rename_i h
    push_neg at h
    simp only
    omega

theorem dcRefill_fst_len_zero {sec stream : List Nat} {a : Nat} (ha : 0 < a)
    (h : (dcRefill sec stream a).1.length = 0) : sec = [] ∧ stream = [] := by
  unfold dcRefill at h
  split at h
  · simp only [List.length_append, List.length_take] at h
    have h2 : sec.length = 0 ∧ stream.length = 0 := by omega
    exact ⟨List.eq_nil_of_length_eq_zero h2.1, List.eq_nil_of_length_eq_zero h2.2⟩
  · rename_i hge
    push_neg at hge
    simp only at h
    omega

/-- Concatenating all chunks of the driver loop reproduces buffer ‖ stream,
provided the fuel exceeds the total byte count. -/
theorem dcGo_join (gear : Nat → Nat) :
    ∀ (fuel : Nat) (sec stream : List Nat) (counter : Nat),
      sec.length + stream.length < fuel →
      (dcGo gear fuel sec stream counter).flatten = sec ++ stream := by
  intro fuel
  induction fuel with
  | zero => intro sec stream counter h; exact absurd h (Nat.not_lt_zero _)
  | succ fuel ih =>
    intro sec stream counter h
    rw [dcGo]
    by_cases hc : counter < 100
    · rw [if_pos hc]
      have happ := dcRefill_append sec stream 640
      have hlen := dcRefill_len sec stream 640
      by_cases hz : (dcRefill sec stream 640).1.length = 0
      · rw [if_pos hz]
        obtain ⟨rfl, rfl⟩ := dcRefill_fst_len_zero (by norm_num) hz
        simp
      · rw [if_neg hz]
        have hbounds := chunk_length_bounds gear (dcRefill sec stream 640).1
          40 20 640 0x016118 0x00a0b1 (by norm_num) (by norm_num)
        rw [List.flatten_cons,
          ih _ _ (counter + 1) (by simp only [List.length_drop]; omega),
          ← List.append_assoc, List.take_append_drop, happ]
    · rw [if_neg hc]
      have happ := dcRefill_append sec stream 65536
      have hlen := dcRefill_len sec stream 65536
      by_cases hz : (dcRefill sec stream 65536).1.length = 0
      · rw [if_pos hz]
        obtain ⟨rfl, rfl⟩ := dcRefill_fst_len_zero (by norm_num) hz
        simp
      · rw [if_neg hz]
        have hbounds := chunk_length_bounds gear (dcRefill sec stream 65536).1
          4096 2048 65536 0x0003590703530000 0x0000d90003530000 (by norm_num) (by norm_num)
        rw [List.flatten_cons,
          ih _ _ (counter + 1) (by simp only [List.length_drop]; omega),
          ← List.append_assoc, List.take_append_drop, happ]

/-- C4: the concatenation, in emission order, of all chunks yielded by the
gear chunker equals the original input exactly — for every gear table and
every input byte string. -/
theorem data_chunks_join (gear : Nat → Nat) (data : List Nat) :
    (data_chunks gear data).flatten = data := by
  unfold data_chunks
  rw [dcGo_join gear (data.length + 1) _ _ 0
    (by simp only [List.length_take, List.length_drop]; omega)]
  exact List.take_append_drop 640 data

/-- Size discipline of the driver loop: chunk `j` (emitted with counter
value `counter + j`) has length at least `min(remaining, min_size)` and at
most `max_size` of its stage, where `remaining` is the byte count not yet
emitted when the chunk is cut. -/
theorem dcGo_sizes (gear : Nat → Nat) :
    ∀ (fuel : Nat) (sec stream : List Nat) (counter j : Nat),
      sec.length + stream.length < fuel →
      j < (dcGo gear fuel sec stream counter).length →
      min (sec.length + stream.length -
            (((dcGo gear fuel sec stream counter).take j).map List.length).sum)
          (if counter + j < 100 then 20 else 2048)
        ≤ ((dcGo gear fuel sec stream counter).getD j []).length ∧
      ((dcGo gear fuel sec stream counter).getD j []).length
        ≤ (if counter + j < 100 then 640 else 65536) := by
  intro fuel
  induction fuel with
  | zero => intro sec stream counter j h; exact absurd h (Nat.not_lt_zero _)
  | succ fuel ih =>
    intro sec stream counter j h hj
    rw [dcGo] at hj ⊢
    by_cases hc : counter < 100
    · rw [if_pos hc] at hj ⊢
      have hge := dcRefill_fst_ge sec stream 640
      have hlen := dcRefill_len sec stream 640
      by_cases hz : (dcRefill sec stream 640).1.length = 0
      · rw [if_pos hz] at hj
        exact absurd hj (by simp)
      · rw [if_neg hz] at hj ⊢
        have hbounds := chunk_length_bounds gear (dcRefill sec stream 640).1
          40 20 640 0x016118 0x00a0b1 (by norm_num) (by norm_num)
        cases j with
        | zero =>
          simp only [List.take_zero, List.map_nil, List.sum_nil, List.getD_cons_zero,
            Nat.sub_zero, Nat.add_zero, List.length_take]
          rw [if_pos hc, if_pos hc]
          omega
        | succ j' =>
          have hj' : j' < (dcGo gear fuel
              ((dcRefill sec stream 640).1.drop
                (chunk_length gear (dcRefill sec stream 640).1 40 20 640 0x016118 0x00a0b1))
              (dcRefill sec stream 640).2 (counter + 1)).length := by
            simpa using hj
          have hIH := ih _ _ (counter + 1) j'
            (by simp only [List.length_drop]; omega) hj'
          simp only [List.length_drop] at hIH
          simp only [List.take_succ_cons, List.map_cons, List.sum_cons, List.getD_cons_succ,
            List.length_take]
          have hcond : counter + (j' + 1) = counter + 1 + j' := by omega
          rw [hcond]
          omega
    · rw [if_neg hc] at hj ⊢
      have hge := dcRefill_fst_ge sec stream 65536
      have hlen := dcRefill_len sec stream 65536
      by_cases hz : (dcRefill sec stream 65536).1.length = 0
      · rw [if_pos hz] at hj
        exact absurd hj (by simp)
      · rw [if_neg hz] at hj ⊢
        have hbounds := chunk_length_bounds gear (dcRefill sec stream 65536).1
          4096 2048 65536 0x0003590703530000 0x0000d90003530000 (by norm_num) (by norm_num)
        cases j with
        | zero =>
          simp only [List.take_zero, List.map_nil, List.sum_nil, List.getD_cons_zero,
            Nat.sub_zero, Nat.add_zero, List.length_take]
          rw [if_neg hc, if_neg hc]
          omega
        | succ j' =>
          have hj' : j' < (dcGo gear fuel
              ((dcRefill sec stream 65536).1.drop
                (chunk_length gear (dcRefill sec stream 65536).1 4096 2048 65536
                  0x0003590703530000 0x0000d90003530000))
              (dcRefill sec stream 65536).2 (counter + 1)).length := by
            simpa using hj
          have hIH := ih _ _ (counter + 1) j'
            (by simp only [List.length_drop]; omega) hj'
          simp only [List.length_drop] at hIH
          simp only [List.take_succ_cons, List.map_cons, List.sum_cons, List.getD_cons_succ,
            List.length_take]
          have hcond : counter + (j' + 1) = counter + 1 + j' := by omega
          rw [hcond]
          omega

/-- C5: every chunk emitted by the gear chunker has length in
`[min(len(remaining), min_size), max_size]`, where `min_size`/`max_size`
are 20/640 for the first 100 chunks and 2048/65536 thereafter, and
`remaining` is the not-yet-emitted suffix of the input. -/
theorem data_chunks_sizes (gear : Nat → Nat) (data : List Nat) (j : Nat)
    (hj : j < (data_chunks gear data).length) :
    min (data.length - (((data_chunks gear data).take j).map List.length).sum)
        (if j < 100 then 20 else 2048)
      ≤ ((data_chunks gear data).getD j []).length ∧
    ((data_chunks gear data).getD j []).length ≤ (if j < 100 then 640 else 65536) := by
  have h := dcGo_sizes gear (data.length + 1) (data.take 640) (data.drop 640) 0 j
    (by simp only [List.length_take, List.length_drop]; omega)
    (by exact hj)
  have hlen : (data.take 640).length + (data.drop 640).length = data.length := by
    simp only [List.length_take, List.length_drop]; omega
  unfold data_chunks at hj ⊢
  rw [hlen] at h
  simpa using h

/-- C5 witness: on the three-byte input `[1, 2, 3]` the single chunk is the
terminal short chunk of length 3 = min(remaining, 20) ≤ 640. -/
theorem data_chunks_sizes_witness :
    0 < (data_chunks (fun _ => 0) [1, 2, 3]).length ∧
    min ((3 : Nat) - (((data_chunks (fun _ => 0) [1, 2, 3]).take 0).map List.length).sum)
        (if (0 : Nat) < 100 then 20 else 2048)
      ≤ ((data_chunks (fun _ => 0) [1, 2, 3]).getD 0 []).length ∧
    ((data_chunks (fun _ => 0) [1, 2, 3]).getD 0 []).length
      ≤ (if (0 : Nat) < 100 then 640 else 65536) := by
  have h0 : 0 < (data_chunks (fun _ => 0) [1, 2, 3]).length := by
    rw [data_chunks, dcGo]
    norm_num [dcRefill, chunk_length]
  refine ⟨h0, ?_⟩
  have h := data_chunks_sizes (fun _ => 0) [1, 2, 3] 0 h0
  simpa using h

/-- One pairing level of `top_hash`: hash consecutive pairs with
`hash_inner_nodes`; the last node of an odd level is paired with itself.
`hin` abstracts `hash_inner_nodes(a, b) = sha256d(b'\x01' + a + b)`, whose
SHA-256 core is an external collaborator. -/
def topStep (hin : List Nat → List Nat → List Nat) :
    List (List Nat) → List (List Nat)
  | a :: b :: rest => hin a b :: topStep hin rest
  | [a] => [hin a a]
  | [] => []

/-- Function `top_hash` from `iscc.py`, with explicit fuel standing for the call
depth: `size == 1` returns the single digest, otherwise recurse on the
pairwise-hashed level.  The source recurses unconditionally, so on the empty
list it never reaches a base case; exhausted fuel (`none`) models that
divergence.  -/
def top_hash (hin : List Nat → List Nat → List Nat) :
    Nat → List (List Nat) → Option (List Nat)
  | 0, _ => none
  | fuel + 1, hashes =>
    if hashes.length = 1 then some (hashes.headD [])
    else top_hash hin fuel (topStep hin hashes)

theorem topStep_length (hin : List Nat → List Nat → List Nat) :
    ∀ hs : List (List Nat), (topStep hin hs).length = (hs.length + 1) / 2 := by
  intro hs
  induction hs using topStep.induct hin with
  | case1 a b rest ih => simp only [topStep, List.length_cons, ih]; omega
  | case2 a => simp [topStep]
  | case3 => simp [topStep]

theorem topStep_mem_length (hin : List Nat → List Nat → List Nat)
    (hhin : ∀ a b, (hin a b).length = 32) :
    ∀ hs : List (List Nat), (∀ h ∈ hs, h.length = 32) →
      ∀ h ∈ topStep hin hs, h.length = 32 := by
  intro hs
  induction hs using topStep.induct hin with
  | case1 a b rest ih =>
    intro hmem h hh
    rw [topStep] at hh
    rcases List.mem_cons.mp hh with rfl | hh
    · exact hhin a b
    · exact ih (fun x hx => hmem x (by simp [hx])) h hh
  | case2 a =>
    intro hmem h hh
    rw [topStep] at hh
    rcases List.mem_cons.mp hh with rfl | hh
    · exact hhin a a
    · simp at hh
  | case3 =>
    intro hmem h hh
    simp [topStep] at hh

theorem top_hash_terminates (hin : List Nat → List Nat → List Nat) :
    ∀ (fuel : Nat) (hashes : List (List Nat)),
      hashes ≠ [] → hashes.length ≤ fuel →
      ∃ r, top_hash hin fuel hashes = some r ∧
        (r ∈ hashes ∨ ∃ a b, r = hin a b) := by
  intro fuel
  induction fuel with
  | zero =>
    intro hashes hne hle
    exact absurd (List.length_eq_zero.mp (by omega)) hne
  | succ fuel ih =>
    intro hashes hne hle
    rw [top_hash]
    by_cases h1 : hashes.length = 1
    · refine ⟨hashes.headD [], by rw [if_pos h1], Or.inl ?_⟩
      rcases hashes with _ | ⟨a, rest⟩
      · exact absurd rfl hne
      · simp
    · rw [if_neg h1]
      have hlen2 : 2 ≤ hashes.length := by
        rcases hashes with _ | ⟨a, rest⟩
        · exact absurd rfl hne
        · simp only [List.length_cons] at h1 ⊢
          omega
      have hstep := topStep_length hin hashes
      have hne' : topStep hin hashes ≠ [] := by
        intro hnil
        rw [hnil] at hstep
        simp at hstep
        omega
      obtain ⟨r, hr, hmem⟩ := ih (topStep hin hashes) hne' (by omega)
      refine ⟨r, hr, ?_⟩
      rcases hmem with hmem | hmem
      · right
        clear hr hstep hne' h1 hlen2 hle hne
        induction hashes using topStep.induct hin with
        | case1 a b rest ihm =>
          rw [topStep] at hmem
          rcases List.mem_cons.mp hmem with rfl | hmem
          · exact ⟨a, b, rfl⟩
          · exact ihm hmem
        | case2 a =>
          rw [topStep] at hmem
          rcases List.mem_cons.mp hmem with rfl | hmem
          · exact ⟨a, a, rfl⟩
          · simp at hmem
        | case3 => simp [topStep] at hmem
      · exact Or.inr hmem

/-- On the empty leaf list the source recursion never terminates: no amount
of fuel produces a result. -/
theorem top_hash_nil (hin : List Nat → List Nat → List Nat) :
    ∀ fuel, top_hash hin fuel [] = none := by
  intro fuel
  induction fuel with
  | zero => rfl
  | succ fuel ih =>
    rw [top_hash, if_neg (by simp)]
    simpa [topStep] using ih

/-- C9: for every non-empty list of 32-byte leaf digests `top_hash`
terminates (fuel equal to the leaf count suffices) and returns a single
32-byte root; each pairing level maps `n ≥ 2` nodes to `⌈n/2⌉` nodes; the
empty list is outside the guarantee — the recursion diverges on it, so
`instance_id` is only defined for inputs yielding at least one leaf. -/
theorem top_hash_spec (hin : List Nat → List Nat → List Nat)
    (hashes : List (List Nat))
    (hhin : ∀ a b, (hin a b).length = 32)
    (hleaf : ∀ h ∈ hashes, h.length = 32)
    (hne : hashes ≠ []) :
    (∃ r, top_hash hin hashes.length hashes = some r ∧ r.length = 32) ∧
    (∀ hs : List (List Nat), 2 ≤ hs.length →
      (topStep hin hs).length = (hs.length + 1) / 2) ∧
    (∀ fuel, top_hash hin fuel [] = none) := by
  refine ⟨?_, fun hs _ => topStep_length hin hs, top_hash_nil hin⟩
  obtain ⟨r, hr, hmem⟩ := top_hash_terminates hin hashes.length hashes hne (le_refl _)
  refine ⟨r, hr, ?_⟩
  rcases hmem with hmem | ⟨a, b, rfl⟩
  · exact hleaf r hmem
  · exact hhin a b

/-- C9 witness: two 32-byte leaves, a constant 32-byte inner hash. -/
theorem top_hash_spec_witness :
    (∃ r, top_hash (fun _ _ => List.replicate 32 7) 2
        [List.replicate 32 1, List.replicate 32 2] = some r ∧ r.length = 32) ∧
    (∀ hs : List (List Nat), 2 ≤ hs.length →
      (topStep (fun _ _ => List.replicate 32 7) hs).length = (hs.length + 1) / 2) ∧
    (∀ fuel, top_hash (fun _ _ => List.replicate 32 7) fuel [] = none) :=
  top_hash_spec (fun _ _ => List.replicate 32 7)
    [List.replicate 32 1, List.replicate 32 2]
    (fun _ _ => by simp)
    (by intro h hh
        rcases List.mem_cons.mp hh with rfl | hh
        · simp
        · rcases List.mem_cons.mp hh with rfl | hh
          · simp
          · simp at hh)
    (by simp)

/-- Number of set bits, as `bin(x).count('1')` and bitarray's `count_xor`
count them. -/
def popCount (n : Nat) : Nat :=
  if n = 0 then 0 else n % 2 + popCount (n / 2)
  decreasing_by exact Nat.div_lt_self (Nat.pos_of_ne_zero (by assumption)) (by norm_num)

/-- Function `distance_bytes` from `metrics.py`: Hamming distance of two byte digests
of equal length (bitarray's `count_xor` raises on unequal lengths, modelled
by `none`). -/
def distance_bytes (a b : List Nat) : Option Nat :=
  if a.length = b.length then
    some ((List.zipWith (fun x y => popCount (x ^^^ y)) a b).sum)
  else none

/-- Modelled from the spec: the parse result of `decode_base32` followed by
`read_header` from the missing `iscc/codec.py` — the header fields
`(main_type, sub_type, version, length)` and the remaining digest of a code
string.  `distance_code` is settled over this parsed form. -/
structure CodeTuple where
  mtype : Nat
  stype : Nat
  version : Nat
  len : Nat
  digest : List Nat

/-- Function `distance_code` from `metrics.py` on parsed codes: without `mixed`, the
assert `a[:-1] == b[:-1]` requires all four header fields equal (`none` on
failure) and the distance is taken over the digests truncated to
`length // 8` bytes; with `mixed`, only main type and version must agree and
the common-prefix length is used. -/
def distance_code (a b : CodeTuple) (mixed : Bool) : Option Nat :=
  if mixed then
    if a.mtype = b.mtype ∧ a.version = b.version then
      distance_bytes (a.digest.take (min a.len b.len / 8))
        (b.digest.take (min a.len b.len / 8))
    else none
  else
    if a.mtype = b.mtype ∧ a.stype = b.stype ∧ a.version = b.version ∧ a.len = b.len then
      distance_bytes (a.digest.take (a.len / 8)) (b.digest.take (b.len / 8))
    else none

/-- C6: without the mixed flag, `distance_code` fails iff the two headers
disagree on main type, sub-type, version or length; when the headers agree
(and the digests have their declared `length / 8` bytes) it returns the
Hamming distance of the digests, header excluded. -/
theorem distance_code_spec (a b : CodeTuple)
    (hwa : a.digest.length = a.len / 8) (hwb : b.digest.length = b.len / 8) :
    ((a.mtype, a.stype, a.version, a.len) ≠ (b.mtype, b.stype, b.version, b.len) →
      distance_code a b false = none) ∧
    ((a.mtype, a.stype, a.version, a.len) = (b.mtype, b.stype, b.version, b.len) →
      distance_code a b false =
        some ((List.zipWith (fun x y => popCount (x ^^^ y)) a.digest b.digest).sum)) := by
  constructor
  · intro hne
    unfold distance_code
    rw [if_neg (by simp)]
    rw [if_neg ?hcond]
    case hcond =>
      intro hc
      exact hne (by simp [hc.1, hc.2.1, hc.2.2.1, hc.2.2.2])
  · intro heq
    have h1 : a.mtype = b.mtype := congrArg Prod.fst heq
    have h4 : a.len = b.len := congrArg (fun t => t.2.2.2) heq
    have h2 : a.stype = b.stype := congrArg (fun t => t.2.1) heq
    have h3 : a.version = b.version := congrArg (fun t => t.2.2.1) heq
    unfold distance_code
    rw [if_neg (by simp), if_pos ⟨h1, h2, h3, h4⟩]
    have hta : a.digest.take (a.len / 8) = a.digest :=
      List.take_of_length_le (by omega)
    have htb : b.digest.take (b.len / 8) = b.digest :=
      List.take_of_length_le (by omega)
    rw [hta, htb]
    unfold distance_bytes
    rw [if_pos (by omega)]

/-- C6 witness: identical headers, digests `[255, 0]` and `[0, 0]` at
declared length 16 bits, distance 8; and two codes differing in sub-type
fail. -/
theorem distance_code_spec_witness :
    distance_code ⟨0, 1, 0, 16, [255, 0]⟩ ⟨0, 1, 0, 16, [0, 0]⟩ false = some 8 ∧
    distance_code ⟨0, 1, 0, 16, [255, 0]⟩ ⟨0, 2, 0, 16, [0, 0]⟩ false = none := by
  constructor
  · have h := (distance_code_spec ⟨0, 1, 0, 16, [255, 0]⟩ ⟨0, 1, 0, 16, [0, 0]⟩
      rfl rfl).2 rfl
    rw [h]
    simp only [List.zipWith, List.sum_cons, List.sum_nil]
    norm_num
    simp [popCount]
  · exact (distance_code_spec ⟨0, 1, 0, 16, [255, 0]⟩ ⟨0, 2, 0, 16, [0, 0]⟩
      rfl rfl).1 (by simp)

/-- The external `unicodedata` / `str` collaborator of `normalize_text`,
abstracted: normalization forms as string functions, the major class letter
of `unicodedata.category`, per-character `str.lower`, the whitespace
predicate of `str.split()`, and canonical-combining-class-zero
(`starter`). -/
structure UnicodeData where
  nfkc : List Char → List Char
  nfd : List Char → List Char
  nfc : List Char → List Char
  category : Char → Char
  lower : Char → Char
  isWs : Char → Bool
  starter : Char → Bool

/-- The character walk of `normalize_text`: separator categories (`Z…`)
become a space, categories starting `L`/`N`/`S` are kept lowercased, all
other characters are dropped. -/
def filtmap (U : UnicodeData) : List Char → List Char
  | [] => []
  | c :: rest =>
    if U.category c = 'Z' then ' ' :: filtmap U rest
    else if U.category c = 'L' ∨ U.category c = 'N' ∨ U.category c = 'S' then
      U.lower c :: filtmap U rest
    else filtmap U rest

/-- Python's `str.split()`: the maximal runs of non-whitespace characters,
empty runs omitted. -/
def words (ws : Char → Bool) : List Char → List (List Char)
  | [] => []
  | c :: rest =>
    if ws c then words ws rest
    else (c :: rest.takeWhile (fun x => ! ws x))
      :: words ws (rest.dropWhile (fun x => ! ws x))
  termination_by l => l.length
  decreasing_by
    · simp only [List.length_cons]
      omega
    · simp only [List.length_cons]
      have := (List.dropWhile_sublist (fun x => ! ws x) (l := rest)).length_le
      omega

/-- Python's `' '.join`. -/
def unwords : List (List Char) → List Char
  | [] => []
  | w :: [] => w
  | w :: w2 :: rest => w ++ ' ' :: unwords (w2 :: rest)

/-- Function `normalize_text` from `iscc.py`: NFD, the category walk, whitespace
collapse via `split`/`join`, then NFC. -/
def normalize_text (U : UnicodeData) (text : List Char) : List Char :=
  U.nfc (unwords (words U.isWs (filtmap U (U.nfd text))))

theorem words_nil (ws : Char → Bool) : words ws [] = [] := by
  rw [words]

theorem filtmap_chars (U : UnicodeData) :
    ∀ (l : List Char) (c : Char), c ∈ filtmap U l →
      c = ' ' ∨ ∃ c', c' ∈ l ∧
        (U.category c' = 'L' ∨ U.category c' = 'N' ∨ U.category c' = 'S') ∧
        c = U.lower c' := by
  intro l
  induction l with
  | nil => intro c hc; simp [filtmap] at hc
  | cons x rest ih =>
    intro c hc
    rw [filtmap] at hc
    split at hc
    · rcases List.mem_cons.mp hc with rfl | hc
      · exact Or.inl rfl
      · rcases ih c hc with h | ⟨c', hc', hcat, rfl⟩
        · exact Or.inl h
        · exact Or.inr ⟨c', by simp [hc'], hcat, rfl⟩
    · split at hc
      · rcases List.mem_cons.mp hc with rfl | hc
        · rename_i hcat
          exact Or.inr ⟨x, by simp, hcat, rfl⟩
        · rcases ih c hc with h | ⟨c', hc', hcat, rfl⟩
          · exact Or.inl h
          · exact Or.inr ⟨c', by simp [hc'], hcat, rfl⟩
      · rcases ih c hc with h | ⟨c', hc', hcat, rfl⟩
        · exact Or.inl h
        · exact Or.inr ⟨c', by simp [hc'], hcat, rfl⟩

theorem words_mem_subset (ws : Char → Bool) :
    ∀ (l : List Char) (w : List Char), w ∈ words ws l → ∀ c ∈ w, c ∈ l := by
  intro l
  induction l using words.induct ws with
  | case1 => intro w hw; simp [words] at hw
  | case2 x rest hx ih =>
    intro w hw
    rw [words, if_pos hx] at hw
    intro c hc
    exact List.mem_cons_of_mem x (ih w hw c hc)
  | case3 x rest hx ih =>
    intro w hw
    rw [words, if_neg hx] at hw
    intro c hc
    rcases List.mem_cons.mp hw with rfl | hw
    · rcases List.mem_cons.mp hc with rfl | hc
      · exact List.mem_cons_self _ _
      · exact List.mem_cons_of_mem x ((List.takeWhile_sublist _).mem hc)
    · exact List.mem_cons_of_mem x
        ((List.dropWhile_sublist (fun x => ! ws x)).mem (ih w hw c hc))

theorem words_wf (ws : Char → Bool) :
    ∀ (l : List Char) (w : List Char), w ∈ words ws l →
      w ≠ [] ∧ ∀ c ∈ w, ws c = false := by
  intro l
  induction l using words.induct ws with
  | case1 => intro w hw; simp [words] at hw
  | case2 x rest hx ih =>
    intro w hw
    rw [words, if_pos hx] at hw
    exact ih w hw
  | case3 x rest hx ih =>
    intro w hw
    rw [words, if_neg hx] at hw
    rcases List.mem_cons.mp hw with rfl | hw
    · refine ⟨by simp, ?_⟩
      intro c hc
      rcases List.mem_cons.mp hc with rfl | hc
      · simpa using hx
      · have := List.mem_takeWhile_imp hc
        simpa using this
    · exact ih w hw

theorem unwords_chars :
    ∀ (L : List (List Char)) (c : Char), c ∈ unwords L →
      c = ' ' ∨ ∃ w, w ∈ L ∧ c ∈ w := by
  intro L
  induction L using unwords.induct with
  | case1 => intro c hc; simp [unwords] at hc
  | case2 w => intro c hc; exact Or.inr ⟨w, by simp, by simpa [unwords] using hc⟩
  | case3 w w2 rest ih =>
    intro c hc
    rw [unwords] at hc
    rcases List.mem_append.mp hc with hc | hc
    · exact Or.inr ⟨w, by simp, hc⟩
    · rcases List.mem_cons.mp hc with rfl | hc
      · exact Or.inl rfl
      · rcases ih c hc with h | ⟨w', hw', hcw⟩
        · exact Or.inl h
        · exact Or.inr ⟨w', by simp [hw'], hcw⟩

theorem takeWhile_append_stop {p : Char → Bool} :
    ∀ (xs : List Char) (y : Char) (t : List Char),
      (∀ x ∈ xs, p x = true) → p y = false →
      (xs ++ y :: t).takeWhile p = xs ∧ (xs ++ y :: t).dropWhile p = y :: t := by
  intro xs
  induction xs with
  | nil =>
    intro y t _ hy
    simp [List.takeWhile_cons, List.dropWhile_cons, hy]
  | cons x xs ih =>
    intro y t hall hy
    have hx : p x = true := hall x (by simp)
    have hrest := ih y t (fun z hz => hall z (by simp [hz])) hy
    simp only [List.cons_append, List.takeWhile_cons, List.dropWhile_cons, hx]
    simp [hrest.1, hrest.2]

theorem words_single (ws : Char → Bool) (w : List Char)
    (hne : w ≠ []) (hfree : ∀ c ∈ w, ws c = false) :
    words ws w = [w] := by
  rcases w with _ | ⟨c, rest⟩
  · exact absurd rfl hne
  · rw [words, if_neg (by simp [hfree c (by simp)])]
    have htk : rest.takeWhile (fun x => ! ws x) = rest :=
      List.takeWhile_eq_self_iff.mpr (fun x hx => by simp [hfree x (by simp [hx])])
    have hdr : rest.dropWhile (fun x => ! ws x) = [] :=
      List.dropWhile_eq_nil_iff.mpr (fun x hx => by simp [hfree x (by simp [hx])])
    rw [htk, hdr, words]

theorem words_append_space (ws : Char → Bool) (hsp : ws ' ' = true)
    (w : List Char) (t : List Char)
    (hne : w ≠ []) (hfree : ∀ c ∈ w, ws c = false) :
    words ws (w ++ ' ' :: t) = w :: words ws t := by
  rcases w with _ | ⟨c, rest⟩
  · exact absurd rfl hne
  · have hc : ws c = false := hfree c (by simp)
    have hsplit := takeWhile_append_stop (p := fun x => ! ws x) rest ' ' t
      (fun x hx => by simp [hfree x (by simp [hx])]) (by simp [hsp])
    rw [List.cons_append, words, if_neg (by simp [hc]), hsplit.1, hsplit.2,
      words, if_pos hsp]

theorem words_unwords (ws : Char → Bool) (hsp : ws ' ' = true) :
    ∀ L : List (List Char),
      (∀ w ∈ L, w ≠ [] ∧ ∀ c ∈ w, ws c = false) →
      words ws (unwords L) = L := by
  intro L
  induction L using unwords.induct with
  | case1 => intro _; rw [unwords, words]
  | case2 w =>
    intro hall
    rw [unwords]
    exact words_single ws w (hall w (by simp)).1 (hall w (by simp)).2
  | case3 w w2 rest ih =>
    intro hall
    rw [unwords, words_append_space ws hsp w _ (hall w (by simp)).1 (hall w (by simp)).2,
      ih (fun w' hw' => hall w' (by simp [hw']))]

theorem filtmap_id (U : UnicodeData) (hsp : U.category ' ' = 'Z') :
    ∀ l : List Char,
      (∀ c ∈ l, c = ' ' ∨
        ((U.category c = 'L' ∨ U.category c = 'N' ∨ U.category c = 'S') ∧
          U.lower c = c)) →
      filtmap U l = l := by
  intro l
  induction l with
  | nil => intro _; rfl
  | cons c rest ih =>
    intro hall
    rcases hall c (by simp) with rfl | ⟨hcat, hlow⟩
    · rw [filtmap, if_pos hsp, ih (fun x hx => hall x (by simp [hx]))]
    · have hnz : ¬ U.category c = 'Z' := by
        rcases hcat with h | h | h <;> rw [h] <;> decide
      rw [filtmap, if_neg hnz, if_pos hcat, hlow,
        ih (fun x hx => hall x (by simp [hx]))]

/-- C8: `normalize_text` is idempotent.  The `unicodedata`/`str`
collaborator is axiomatized by facts of the Unicode character database:
(h1) NFD is invariant under a preceding NFC;
(h2) every character of an NFD result is fully decomposed;
(h3) a string of fully decomposed starters (combining class 0) is NFD-normal;
(h4) the lowercase of a fully decomposed letter/number/symbol is itself a
fully decomposed non-whitespace starter of a kept category with idempotent
lowercase;
(h5) the space character is a fully decomposed whitespace separator
starter. -/
theorem normalize_text_idempotent (U : UnicodeData)
    (h1 : ∀ s, U.nfd (U.nfc s) = U.nfd s)
    (h2 : ∀ s c, c ∈ U.nfd s → U.nfd [c] = [c])
    (h3 : ∀ s : List Char, (∀ c ∈ s, U.nfd [c] = [c] ∧ U.starter c = true) →
      U.nfd s = s)
    (h4 : ∀ c, U.nfd [c] = [c] →
      (U.category c = 'L' ∨ U.category c = 'N' ∨ U.category c = 'S') →
      U.nfd [U.lower c] = [U.lower c] ∧
      (U.category (U.lower c) = 'L' ∨ U.category (U.lower c) = 'N' ∨
        U.category (U.lower c) = 'S') ∧
      U.lower (U.lower c) = U.lower c ∧
      U.isWs (U.lower c) = false ∧
      U.starter (U.lower c) = true)
    (h5 : U.nfd [' '] = [' '] ∧ U.category ' ' = 'Z' ∧ U.isWs ' ' = true ∧
      U.starter ' ' = true)
    (text : List Char) :
    normalize_text U (normalize_text U text) = normalize_text U text := by
  have hLwf : ∀ u ∈ words U.isWs (filtmap U (U.nfd text)),
      u ≠ [] ∧ ∀ c ∈ u, U.isWs c = false :=
    fun u hu => words_wf U.isWs (filtmap U (U.nfd text)) u hu
  have hwchars : ∀ c ∈ unwords (words U.isWs (filtmap U (U.nfd text))),
      (U.nfd [c] = [c] ∧ U.starter c = true) ∧
      (c = ' ' ∨
        ((U.category c = 'L' ∨ U.category c = 'N' ∨ U.category c = 'S') ∧
          U.lower c = c ∧ U.isWs c = false)) := by
    intro c hc
    rcases unwords_chars _ c hc with rfl | ⟨u, hu, hcu⟩
    · exact ⟨⟨h5.1, h5.2.2.2⟩, Or.inl rfl⟩
    · have hcX : c ∈ filtmap U (U.nfd text) :=
        words_mem_subset U.isWs _ u hu c hcu
      rcases filtmap_chars U (U.nfd text) c hcX with rfl | ⟨c', hc', hcat, rfl⟩
      · exact ⟨⟨h5.1, h5.2.2.2⟩, Or.inl rfl⟩
      · have hstable := h2 text c' hc'
        have h4c := h4 c' hstable hcat
        exact ⟨⟨h4c.1, h4c.2.2.2.2⟩, Or.inr ⟨h4c.2.1, h4c.2.2.1, h4c.2.2.2.1⟩⟩
  have hnfdw : U.nfd (unwords (words U.isWs (filtmap U (U.nfd text)))) =
      unwords (words U.isWs (filtmap U (U.nfd text))) :=
    h3 _ (fun c hc => (hwchars c hc).1)
  have hfm : filtmap U (unwords (words U.isWs (filtmap U (U.nfd text)))) =
      unwords (words U.isWs (filtmap U (U.nfd text))) := by
    apply filtmap_id U h5.2.1
    intro c hc
    rcases (hwchars c hc).2 with h | ⟨hcat, hlow, _⟩
    · exact Or.inl h
    · exact Or.inr ⟨hcat, hlow⟩
  have hwu : words U.isWs (unwords (words U.isWs (filtmap U (U.nfd text)))) =
      words U.isWs (filtmap U (U.nfd text)) :=
    words_unwords U.isWs h5.2.2.1 _ hLwf
  show U.nfc (unwords (words U.isWs (filtmap U (U.nfd
      (U.nfc (unwords (words U.isWs (filtmap U (U.nfd text))))))))) = _
  rw [h1, hnfdw, hfm, hwu]
  rfl

/-- A concrete instance of the abstract Unicode collaborator: the identity
normalization forms over an alphabet where only `'a'` is a letter and `' '`
is the separator. -/
def unicodeModel : UnicodeData where
  nfkc := fun s => s
  nfd := fun s => s
  nfc := fun s => s
  category := fun c => if c = 'a' then 'L' else if c = ' ' then 'Z' else 'C'
  lower := fun c => c
  isWs := fun c => c = ' '
  starter := fun _ => true

/-- C8 witness: the axioms hold for the concrete model and idempotence is
obtained on the string "a a" by applying the theorem. -/
theorem normalize_text_idempotent_witness :
    normalize_text unicodeModel (normalize_text unicodeModel ['a', ' ', 'a'])
      = normalize_text unicodeModel ['a', ' ', 'a'] :=
  normalize_text_idempotent unicodeModel
    (fun _ => rfl)
    (fun _ _ _ => rfl)
    (fun _ _ => rfl)
    (by
      intro c _ hk
      have hca : c = 'a' := by
        by_cases ha : c = 'a'
        · exact ha
        · by_cases hs : c = ' '
          · rcases hk with h | h | h <;> simp [unicodeModel, ha, hs] at h
          · rcases hk with h | h | h <;> simp [unicodeModel, ha, hs] at h
      subst hca
      refine ⟨rfl, hk, rfl, ?_, rfl⟩
      simp [unicodeModel])
    (by refine ⟨rfl, ?_, ?_, rfl⟩ <;> simp [unicodeModel])
    ['a', ' ', 'a']

/-- Function `sliding_window` from `iscc.py` (the slice computation; the source
asserts `width ≥ 2`, which holds at every call site modelled here):
`[text[i : i + width] for i in range(max(len(text) - width + 1, 1))]`. -/
def sliding_window {α : Type} (text : List α) (width : Nat) : List (List α) :=
  (List.range (max (text.length - width + 1) 1)).map
    (fun i => (text.drop i).take width)

/-- Python `int(lsb, 2)`: a bit string (most significant first) to an integer. -/
def bitsToNat (bits : List Nat) : Nat :=
  bits.foldl (fun acc b => acc * 2 + b) 0

/-- Steps 4–5 shared by `content_id_text` and `data_id`: collect the least
significant bit of each of the 128 minhash slots, parse the first and last
64 bits as big-endian integers and emit two 8-byte digests. -/
def lsbFold (minhash : List Nat) : List Nat × List Nat :=
  ((natToBytesLoop (2 ^ 64) (bitsToNat ((minhash.map (fun x => x &&& 1)).take 64))).reverse,
   (natToBytesLoop (2 ^ 64) (bitsToNat ((minhash.map (fun x => x &&& 1)).drop 64))).reverse)

/-- Function `content_id_text` from `iscc.py` over the abstract collaborators: NFKC,
`normalize_text`, `str.split()`, 5-word shingles (window size
`WINDOW_SIZE_CID_T = 5` modelled from the spec, `const.py` not being under
`src/`), xxHash32 features, minhash, LSB-fold, simhash, header, encode. -/
def content_id_text (U : UnicodeData) (xxh32s : List Char → Nat)
    (a b : Nat → Nat) (v2c : Nat → Char) (head : List Nat)
    (text : List Char) : Option (List Char) :=
  let t2 := normalize_text U (U.nfkc text)
  let shingles := (sliding_window (words U.isWs t2) 5).map unwords
  let minhash := minimum_hash a b (shingles.map xxh32s)
  let p := lsbFold minhash
  encode v2c (head ++ similarity_hash [p.1, p.2])

/-- Function `data_id` from `iscc.py` over the abstract collaborators: xxHash32 per
CDC chunk, minhash, LSB-fold, simhash, header, encode. -/
def data_id (gear : Nat → Nat) (xxh32 : List Nat → Nat)
    (a b : Nat → Nat) (v2c : Nat → Char) (head : List Nat)
    (data : List Nat) : Option (List Char) :=
  let minhash := minimum_hash a b ((data_chunks gear data).map xxh32)
  let p := lsbFold minhash
  encode v2c (head ++ similarity_hash [p.1, p.2])

theorem natToBytesLoop_all_ones :
    ∀ L : Nat, (natToBytesLoop (256 ^ L) (256 ^ L - 1)).reverse =
      List.replicate L 255 := by
  intro L
  induction L with
  | zero => rw [natToBytesLoop_zero (by norm_num)]; rfl
  | succ n ih =>
    rw [natToBytesLoop_pos (by have := one_lt_256_pow n; omega), pow256_succ_div]
    have hp : 0 < (256 : Nat) ^ n := Nat.pos_pow_of_pos n (by norm_num)
    have hm : ((256 : Nat) ^ (n + 1) - 1) % 256 = 255 := by
      rw [pow_succ]
      omega
    have hd : ((256 : Nat) ^ (n + 1) - 1) / 256 = 256 ^ n - 1 := by
      rw [pow_succ]
      omega
    rw [hm, hd, List.reverse_cons, ih, ← List.replicate_succ' n 255]

theorem orFold_all (p : Nat → Prop) [DecidablePred p] (n : Nat)
    (hall : ∀ i < n, p i) :
    (List.range n).foldl (fun sh i => if p i then sh ||| 2 ^ i else sh) 0
      = 2 ^ n - 1 := by
  apply Nat.eq_of_testBit_eq
  intro j
  rw [orFold_testBit, Nat.testBit_two_pow_sub_one]
  apply decide_eq_decide.mpr
  constructor
  · exact fun h => h.1
  · exact fun h => ⟨h, hall j h⟩

/-- The simhash of two all-ones 8-byte digests is the all-ones 8-byte
digest. -/
theorem similarity_hash_all_ones :
    similarity_hash [List.replicate 8 255, List.replicate 8 255] =
      List.replicate 8 255 := by
  unfold similarity_hash
  dsimp only
  have hlen : ((([List.replicate 8 255, List.replicate 8 255] :
      List (List Nat)).headD []).length) = 8 := by simp
  rw [hlen]
  have hcount : ∀ i < 8 * 8,
      (simhashVector [List.replicate 8 255, List.replicate 8 255] (8 * 8)).getD i 0 = 2 := by
    intro i hi
    rw [simhashVector_getD _ _ i hi]
    have hbn : bytesToNat (List.replicate 8 255) = 2 ^ 64 - 1 := by decide
    simp only [List.countP_cons, List.countP_nil, hbn,
      Nat.testBit_two_pow_sub_one]
    have : decide (i < 64) = true := by
      apply decide_eq_true
      omega
    simp [this]
  have hsh : (List.range (8 * 8)).foldl
      (fun sh i => if 2 * (simhashVector [List.replicate 8 255, List.replicate 8 255] (8 * 8)).getD i 0 ≥
          ([List.replicate 8 255, List.replicate 8 255] : List (List Nat)).length
        then sh ||| 2 ^ i else sh) 0 = 2 ^ (8 * 8) - 1 := by
    apply orFold_all
    intro i hi
    rw [hcount i hi]
    simp
  rw [hsh, show (2 : Nat) ^ (8 * 8) - 1 = 256 ^ 8 - 1 from by norm_num]
  exact natToBytesLoop_all_ones 8

theorem lsbFold_len (minhash : List Nat) :
    (lsbFold minhash).1.length = 8 ∧ (lsbFold minhash).2.length = 8 := by
  unfold lsbFold
  constructor <;>
    · simp only [List.length_reverse]
      rw [show (2 : Nat) ^ 64 = 256 ^ 8 from by norm_num]
      exact natToBytesLoop_len 8 _

/-- C10: `minimum_hash` of an empty feature stream is 128 copies of the
initial register `2³² − 1`; consequently `data_id` of the empty stream does
not fail — it returns the fixed code obtained from the all-ones digest —
and `content_id_text` of the empty string does not fail either (it hashes
the single empty shingle produced by the sliding window). -/
theorem empty_input_spec (U : UnicodeData) (xxh32s : List Char → Nat)
    (xxh32 : List Nat → Nat) (gear a b : Nat → Nat) (v2c : Nat → Char)
    (head : List Nat) (hhead : head.length = 1)
    (hnfkc : U.nfkc [] = []) (hnfd : U.nfd [] = []) (hnfc : U.nfc [] = []) :
    minimum_hash a b [] = List.replicate 128 (2 ^ 32 - 1) ∧
    data_id gear xxh32 a b v2c head [] =
      encode v2c (head ++ List.replicate 8 255) ∧
    (∃ s, data_id gear xxh32 a b v2c head [] = some s) ∧
    (∃ s, content_id_text U xxh32s a b v2c head [] = some s) := by
  have hchunks : data_chunks gear [] = [] := rfl
  have hmh : minimum_hash a b [] = List.replicate 128 (2 ^ 32 - 1) := rfl
  have hlsb : lsbFold (List.replicate 128 (2 ^ 32 - 1)) =
      (List.replicate 8 255, List.replicate 8 255) := by
    unfold lsbFold
    have hmap : (List.replicate 128 ((2 : Nat) ^ 32 - 1)).map (fun x => x &&& 1) =
        List.replicate 128 1 := by decide
    have htake : bitsToNat ((List.replicate 128 (1 : Nat)).take 64) = 2 ^ 64 - 1 := by decide
    have hdrop : bitsToNat ((List.replicate 128 (1 : Nat)).drop 64) = 2 ^ 64 - 1 := by decide
    rw [hmap, htake, hdrop, show (2 : Nat) ^ 64 = 256 ^ 8 from by norm_num,
      show (256 : Nat) ^ 8 - 1 = 256 ^ 8 - 1 from rfl]
    rw [natToBytesLoop_all_ones 8]
  have hdid : data_id gear xxh32 a b v2c head [] =
      encode v2c (head ++ List.replicate 8 255) := by
    unfold data_id
    rw [hchunks]
    simp only [List.map_nil]
    rw [hmh, hlsb]
    rw [similarity_hash_all_ones]
  refine ⟨hmh, hdid, ?_, ?_⟩
  · rw [hdid, encode, if_pos (by simp [hhead])]
    exact ⟨_, rfl⟩
  · unfold content_id_text
    have ht2 : normalize_text U (U.nfkc []) = [] := by
      rw [hnfkc]
      unfold normalize_text
      rw [hnfd]
      rw [show filtmap U [] = [] from rfl, words_nil,
        show unwords [] = [] from rfl, hnfc]
    rw [ht2]
    dsimp only
    rw [words_nil]
    have hwin : sliding_window ([] : List (List Char)) 5 = [[]] := rfl
    rw [hwin]
    simp only [List.map_cons, List.map_nil]
    have hlen1 := lsbFold_len (minimum_hash a b [xxh32s (unwords [])])
    have hsimlen := similarity_hash_length
      [(lsbFold (minimum_hash a b [xxh32s (unwords [])])).1,
       (lsbFold (minimum_hash a b [xxh32s (unwords [])])).2] 8
      (by simp)
      (by intro d hd
          rcases List.mem_cons.mp hd with rfl | hd
          · exact hlen1.1
          · rcases List.mem_cons.mp hd with rfl | hd
            · exact hlen1.2
            · simp at hd)
    rw [encode, if_pos (by simp [hhead, hsimlen])]
    exact ⟨_, rfl⟩

/-- C10 witness: all collaborators instantiated concretely. -/
theorem empty_input_spec_witness :
    minimum_hash (fun x => x) (fun x => x) [] = List.replicate 128 (2 ^ 32 - 1) ∧
    data_id (fun _ => 0) (fun _ => 0) (fun x => x) (fun x => x) v2cTable [7] [] =
      encode v2cTable ([7] ++ List.replicate 8 255) ∧
    (∃ s, data_id (fun _ => 0) (fun _ => 0) (fun x => x) (fun x => x) v2cTable [7] []
      = some s) ∧
    (∃ s, content_id_text unicodeModel (fun _ => 0) (fun x => x) (fun x => x)
      v2cTable [7] [] = some s) :=
  empty_input_spec unicodeModel (fun _ => 0) (fun _ => 0) (fun _ => 0)
    (fun x => x) (fun x => x) v2cTable [7] rfl rfl rfl rfl

end ISCC
